import Mathlib

/-!
Verification of the dependency-ordered asset bundler in `flexx/app/_asset.py`.

The Python source works on "things" (objects exposing `name` and `deps`),
`Asset` objects (name + source, lazily materialized content) and `Bundle`
objects (a container of modules that aggregates dependencies).  This file
gives a shallow embedding of those parts of the source:

* `solve_dependencies` is embedded with an explicit fuel argument for the
  inner `while True` loop; the Python loop is unbounded, and the theorem
  `solveLoop_not_fuelout` below shows the chosen fuel (`names.length + 1`)
  is never exhausted, which is exactly the termination argument of the
  source (each pass adds a fresh name to `seen_names`, or raises).
* Python string operations (`split`, `rsplit`, `startswith`, `endswith`,
  `lower`, `replace`, `in`) are embedded as character-list functions on
  `String.data`; all separators used by the source are single characters,
  so these agree with Python's semantics.
* Python's `dict(zip(names, things))` is embedded by `thingLookup`
  (later entries win), and Python's `set` by `Finset String`.
* `logger.warn` calls are modeled by accumulating `(name, dep)` pairs.
* Exceptions are modeled by dedicated result constructors carrying the
  message string.
-/

namespace Flexx

/-- An item processed by `solve_dependencies`: anything with a `name` and a
`deps` attribute.  `val` stands for the rest of the Python object's state,
so that distinct objects with equal names can be told apart. -/
structure Thing where
  name : String
  deps : List String
  val : Nat := 0
deriving DecidableEq

instance : Inhabited Thing := ⟨⟨"", [], 0⟩⟩

/-! ### Character-level embedding of the Python string operations -/

/-- Python `sep in s` for a single-character separator. -/
def chContains (s : String) (c : Char) : Bool := s.data.contains c

/-- Python `s.startswith(pre)`. -/
def chStarts (s pre : String) : Bool := pre.data.isPrefixOf s.data

/-- Python `s.endswith(suf)`. -/
def chEnds (s suf : String) : Bool := suf.data.isSuffixOf s.data

/-- Python `s.lower()` (character-wise). -/
def chLower (s : String) : String := String.mk (s.data.map Char.toLower)

/-- Python `s.split(c)` for a single-character separator (never empty). -/
def chSplit (c : Char) : List Char → List (List Char)
  | [] => [[]]
  | x :: xs =>
    match chSplit c xs, decide (x = c) with
    | r, true => [] :: r
    | [], false => [[x]]
    | g :: gs, false => (x :: g) :: gs

/-- Python `s.split(c)` on a `String`, returning `String`s. -/
def strSplit (c : Char) (s : String) : List String :=
  (chSplit c s.data).map String.mk

/-- Python `s.rsplit('.', 1)[0]` for a string that contains a dot:
everything before the last dot. -/
def rsplitDot (s : String) : String :=
  String.mk (List.intercalate ['.'] ((chSplit '.' s.data).dropLast))

/-- Python `s.replace('\\', '/')` (single-character replacement). -/
def chReplaceBackslash (s : String) : String :=
  String.mk (s.data.map (fun ch => if ch = '\\' then '/' else ch))

/-- Python string comparison on code points, as used by `sorted(key=...)`. -/
def chLeChars : List Char → List Char → Bool
  | [], _ => true
  | _ :: _, [] => false
  | a :: as, b :: bs =>
    if a = b then chLeChars as bs else decide (a.toNat < b.toNat)

/-- Python `a <= b` on strings. -/
def chLe (a b : String) : Bool := chLeChars a.data b.data

/-! ### solve_dependencies -/

/-- Python `thingmap = dict([(n, t) for n, t in zip(names, things)])` and
lookup: the binding of the *last* thing with the given name. -/
def thingLookup : List Thing → String → Option Thing
  | [], _ => none
  | t :: ts, n =>
    match thingLookup ts n with
    | some r => some r
    | none => if t.name = n then some t else none

/-- The `deps` attribute of `thingmap[n]` (defaulting to `[]`, never used
on names outside the map). -/
def depsOf (things : List Thing) (n : String) : List String :=
  ((thingLookup things n).map Thing.deps).getD []

/-- Python `names.index(dep)`: index of the first occurrence (length if
absent; the source only calls it on present names). -/
def idxOf (a : String) : List String → Nat
  | [] => 0
  | x :: xs => if x = a then 0 else idxOf a xs + 1

/-- Python `list.insert(n, a)` for `n ≤ len`. -/
def insertAt : Nat → String → List String → List String
  | 0, a, l => a :: l
  | _ + 1, a, [] => [a]
  | n + 1, a, x :: xs => x :: insertAt n a xs

/-- Python `list.pop(j)` (element removal; the popped value is read
separately with `getD`). -/
def eraseAt : Nat → List String → List String
  | _, [] => []
  | 0, _ :: xs => xs
  | n + 1, x :: xs => x :: eraseAt n xs

/-- Python `names.insert(index, names.pop(j))` for `index < j`. -/
def moveNameTo (names : List String) (j index : Nat) : List String :=
  insertAt index (names.getD j "") (eraseAt j names)

/-- One pass of the source's `for dep in thingmap[name].deps` loop: emitted
missing-dependency warnings (when `warn` is set), and the index `j` of the
first dep found at a position `j > index` (`none` if the pass completes
without a move, i.e. the `for ... else` branch). -/
def scanDeps (warn : Bool) (name : String) (index : Nat) (names : List String) :
    List String → List (String × String) × Option Nat
  | [] => ([], none)
  | dep :: rest =>
    if dep ∈ names then
      if index < idxOf dep names then ([], some (idxOf dep names))
      else scanDeps warn name index names rest
    else
      let r := scanDeps warn name index names rest
      ((if warn then [(name, dep)] else []) ++ r.1, r.2)

/-- Result of the resolver: a successful ordering with the warnings logged,
the `RuntimeError` raised on a cycle (with its message and the warnings
logged before the raise), or exhaustion of the fuel modeling the unbounded
`while True` loop (proved unreachable below). -/
inductive SolveRes (α : Type) where
  | ok (result : α) (warns : List (String × String))
  | circular (msg : String) (warns : List (String × String))
  | fuelout
deriving DecidableEq

/-- The source's `while True` loop settling position `index`: check the
name at `index` against `seen_names` (raise on repetition), scan its deps,
and either move a later dep to `index` and repeat, or stop. -/
def settle (warn : Bool) (things : List Thing) (index : Nat) :
    Nat → List String → List String → List (String × String) → SolveRes (List String)
  | 0, _, _, _ => .fuelout
  | fuel + 1, seen, names, acc =>
    let name := names.getD index ""
    if name ∈ seen then
      .circular "Detected circular dependency!" acc
    else
      let r := scanDeps warn name index names (depsOf things name)
      match r.2 with
      | some j => settle warn things index fuel (name :: seen) (moveNameTo names j index) (acc ++ r.1)
      | none => .ok names (acc ++ r.1)

/-- The source's `for index in range(len(names))` loop; `k` counts the
remaining indices. -/
def solveLoop (warn : Bool) (things : List Thing) :
    Nat → Nat → List String → List (String × String) → SolveRes (List String)
  | 0, _, names, acc => .ok names acc
  | k + 1, index, names, acc =>
    match settle warn things index (names.length + 1) [] names acc with
    | .ok names' acc' => solveLoop warn things k (index + 1) names' acc'
    | .circular m a => .circular m a
    | .fuelout => .fuelout

/-- Python `thingmap[name]` as a total function (the algorithm only looks
up names present in the map). -/
def lookupFn (things : List Thing) (n : String) : Thing :=
  (thingLookup things n).getD default

/-- Embedding of `solve_dependencies(things, warn_missing)`. -/
def solve_dependencies (things : List Thing) (warn_missing : Bool) : SolveRes (List Thing) :=
  let names := things.map Thing.name
  match solveLoop warn_missing things names.length 0 names [] with
  | .ok ns acc => .ok (ns.map (lookupFn things)) acc
  | .circular m a => .circular m a
  | .fuelout => .fuelout

/-! ### The dependency graph restricted to present names -/

/-- Edge of the dependency graph restricted to the names present in
`things`: `a` depends on `b`, with both names present. -/
def DepEdge (things : List Thing) (a b : String) : Prop :=
  a ∈ things.map Thing.name ∧ b ∈ things.map Thing.name ∧ b ∈ depsOf things a

instance (things : List Thing) (a b : String) : Decidable (DepEdge things a b) :=
  inferInstanceAs (Decidable (_ ∧ _ ∧ _))

/-- Position `i` of `names` is settled: every present dependency of the
item at `i` sits at a position `≤ i`. -/
def SettledAt (things : List Thing) (names : List String) (i : Nat) : Prop :=
  ∀ dep ∈ depsOf things (names.getD i ""), dep ∈ names → idxOf dep names ≤ i

/-- The `seen_names` list (most recent first) forms a chain of dependency
edges: each earlier-seen name depends on the name seen right after it. -/
def SeenChain (things : List Thing) : List String → Prop
  | [] => True
  | [_] => True
  | a :: b :: rest => DepEdge things b a ∧ SeenChain things (b :: rest)

/-- The most recently seen name (if any) depends on the current occupant of
the settling position. -/
def HeadOk (things : List Thing) (seen : List String) (cur : String) : Prop :=
  match seen with
  | [] => True
  | s :: _ => DepEdge things s cur

/-! ### Asset -/

/-- Return value of a Python source function: a `str`, or a value of some
other class (whose class name appears in the error message). -/
inductive FnRet where
  | str (s : String)
  | nonstr (className : String)

/-- The `source` argument of `Asset.__init__`: `None`, a string, a callable,
or a value of any other type. -/
inductive Source where
  | none
  | str (s : String)
  | func (f : Unit → FnRet)
  | other

/-- The state of a constructed `Asset`: its `_name`, `_source`, `_remote`
flag and `_source_str` cache.  The instantiation counter `i` (debug only)
is omitted. -/
structure AssetState where
  name : String
  source : Source
  remote : Bool
  source_str : Option String

/-- Python `name.startswith(url_starts)` with `url_starts =
('https://', 'http://')`. -/
def isUrl (s : String) : Bool :=
  chStarts s "https://" || chStarts s "http://"

/-- The part of `Asset.__init__` after the name has been normalized:
the suffix check and the source handling.  Raised exceptions are
`Except.error` with the message. -/
def assetInitRest (name : String) (source : Source) : Except String AssetState :=
  if !(chEnds (chLower name) ".js" || chEnds (chLower name) ".css") then
    .error "Asset name must end in .js or .css."
  else
    match source with
    | Source.none => .error "Asset needs a source."
    | Source.str s =>
      if isUrl s then
        .ok { name := name, source := Source.str s, remote := true, source_str := Option.none }
      else if chStarts s "file://" then
        .error "Cannot specify an asset using file://, use http or open the file and use contents."
      else
        .ok { name := name, source := Source.str s, remote := false, source_str := some s }
    | Source.func f =>
      .ok { name := name, source := Source.func f, remote := false, source_str := Option.none }
    | Source.other => .error "Asset source must be str or callable."

/-- Embedding of `Asset.__init__(name, source)`.  The `isinstance(name, str)`
check is enforced by the type of `name`. -/
def Asset.init (name : String) (source : Source) : Except String AssetState :=
  if isUrl name then
    match source with
    | Source.none =>
      assetInitRest (String.mk ((chSplit '/' (chReplaceBackslash name).data).getLastD []))
        (Source.str name)
    | _ => .error ("Remote assets cannot have a source: " ++ name)
  else
    assetInitRest name source

/-- Embedding of `Asset.to_string()`.  `fetch` stands for the external
network collaborator `_get_from_url`.  The returned `Nat` counts how many
times the source function was invoked during this call (instrumentation
for the compute-once property; the Python method returns only the string
and caches into `self._source_str`, which here becomes the returned
state).  The `assert False` branch is modeled as an error. -/
def Asset.to_string (fetch : String → String) (st : AssetState) :
    Except String (String × AssetState × Nat) :=
  match st.source_str with
  | some s => .ok (s, st, 0)
  | Option.none =>
    match st.source with
    | Source.func f =>
      match f () with
      | FnRet.str s => .ok (s, { st with source_str := some s }, 1)
      | FnRet.nonstr cn =>
        .error ("Source function of asset " ++ st.name ++ " did not return a str, but a "
          ++ cn ++ ".")
    | Source.str url =>
      if st.remote then
        .ok (fetch url, { st with source_str := some (fetch url) }, 0)
      else .error "AssertionError: This should not happen"
    | _ =>
      if st.remote then .error "AssertionError: remote fetch on a non-str source"
      else .error "AssertionError: This should not happen"

/-! ### Bundle -/

/-- The state of a `Bundle`: its `_name`, `_module_name`, `_modules`,
`_deps` and `_need_sort` fields.  The `_assets` list and the inherited
`Asset` source fields (always the literal `''`) play no role in the
claims and are omitted. -/
structure BundleState where
  name : String
  module_name : String
  modules : List Thing
  deps : Finset String
  need_sort : Bool
deriving DecidableEq

/-- Python `name.rsplit('.', 1)[0]`: the whole string when it has no dot. -/
def rsplitStem (name : String) : String :=
  if chContains name '.' then rsplitDot name else name

/-- Python `name.rsplit('.', 1)[0].split('-')[0]`, the bundle's namespace. -/
def bundleModuleName (name : String) : String :=
  (strSplit '-' (rsplitStem name)).headD ""

/-- Python `'.' + self.name.rsplit('.')[-1].lower()`, the bundle's
extension. -/
def bundleExt (name : String) : String :=
  "." ++ chLower (String.mk ((chSplit '.' name.data).getLastD []))

/-- Embedding of `Bundle.__init__(name)`: the inherited
`Asset.__init__(name, '')` validates the name (and rejects URL names,
since `''` is not `None`). -/
def bundleInit (name : String) : Except String BundleState :=
  match Asset.init name (Source.str "") with
  | .error e => .error e
  | .ok st =>
    .ok { name := st.name
          module_name := bundleModuleName name
          modules := []
          deps := ∅
          need_sort := false }

/-- The expansion of one declared dependency into all of its dotted-path
ancestors, i.e. the source's `while '.' in dep` loop.  The loop strictly
shortens `dep` each pass, so `dep.length` passes of fuel always suffice. -/
def expandDep : Nat → String → List String
  | 0, dep => [dep]
  | fuel + 1, dep =>
    if chContains dep '.' then dep :: expandDep fuel (rsplitDot dep) else [dep]

/-- The source's `deps = set(); for dep in m.deps: while ...` block:
the set of all dotted-path ancestors of all declared deps. -/
def expandDeps (deps : List String) : Finset String :=
  deps.foldl (fun s dep => s ∪ (expandDep dep.length dep).toFinset) ∅

/-- The contribution of one module to the bundle's `_deps`: the expanded
deps that are not represented by the bundle itself (the source's
`startswith` test), suffixed with the bundle's extension. -/
def modContrib (ns ext : String) (m : Thing) : Finset String :=
  Finset.image (fun dep => dep ++ ext)
    ((expandDeps m.deps).filter
      (fun dep => ¬(chStarts dep ns ∨ chStarts ns (dep ++ "."))))

/-- Embedding of `Bundle.add_module(m)`. -/
def addModule (b : BundleState) (m : Thing) : Except String BundleState :=
  if chStarts m.name b.module_name then
    .ok { b with
          modules := b.modules ++ [m]
          need_sort := true
          deps := b.deps ∪ modContrib b.module_name (bundleExt b.name) m }
  else
    .error ("Module " ++ m.name ++ " does not belong in bundle " ++ b.name ++ ".")

/-- A sequence of `add_module` calls. -/
def addModules : BundleState → List Thing → Except String BundleState
  | b, [] => .ok b
  | b, m :: ms =>
    match addModule b m with
    | .ok b' => addModules b' ms
    | .error e => .error e

/-- Stable insertion into a by-name sorted list (insert before the first
strictly greater name). -/
def insertByName (t : Thing) : List Thing → List Thing
  | [] => [t]
  | x :: xs => if chLe t.name x.name then t :: x :: xs else x :: insertByName t xs

/-- Python `sorted(modules, key=lambda m: m.name)`: the stable sort by
name (any two stable sorts by the same key agree, so insertion sort is a
faithful model of Python's `sorted`). -/
def sortByName : List Thing → List Thing
  | [] => []
  | t :: ts => insertByName t (sortByName ts)

/-- Embedding of the `Bundle.modules` property.  It returns the module
list and the bundle state after the access; note that the source does
*not* reset `_need_sort` after sorting. -/
def bundleModules (b : BundleState) : Except String (List Thing × BundleState) :=
  if b.need_sort then
    match solve_dependencies (sortByName b.modules) false with
    | .ok res _ => .ok (res, { b with modules := res })
    | .circular m _ => .error m
    | .fuelout => .error "fuelout"
  else
    .ok (b.modules, b)

/-! ## List utilities -/

theorem getD_mem {l : List String} {i : Nat} (h : i < l.length) (d : String) :
    l.getD i d ∈ l := by
  induction l generalizing i with
  | nil => simp at h
  | cons x xs ih =>
    cases i with
    | zero => simp
    | succ n => exact List.mem_cons_of_mem _ (ih (by simpa using h) )

theorem idxOf_lt_length {a : String} {l : List String} (h : a ∈ l) :
    idxOf a l < l.length := by
  induction l with
  | nil => simp at h
  | cons x xs ih =>
    simp only [idxOf]
    split
    · simp
    · next hne =>
      have ha : a ∈ xs := by
        rcases List.mem_cons.mp h with h1 | h1
        · exact absurd h1.symm hne
        · exact h1
      simpa [Nat.succ_lt_succ_iff] using ih ha

theorem getD_idxOf {a : String} {l : List String} (h : a ∈ l) (d : String) :
    l.getD (idxOf a l) d = a := by
  induction l with
  | nil => simp at h
  | cons x xs ih =>
    simp only [idxOf]
    split
    · next he => simpa using he
    · next hne =>
      have ha : a ∈ xs := by
        rcases List.mem_cons.mp h with h1 | h1
        · exact absurd h1.symm hne
        · exact h1
      simpa using ih ha

theorem idxOf_le_iff_mem_take {a : String} {l : List String} (h : a ∈ l) (n : Nat) :
    idxOf a l ≤ n ↔ a ∈ l.take (n + 1) := by
  induction l generalizing n with
  | nil => simp at h
  | cons x xs ih =>
    simp only [idxOf]
    split
    · next he => simp [List.take_succ_cons, he]
    · next hne =>
      have ha : a ∈ xs := by
        rcases List.mem_cons.mp h with h1 | h1
        · exact absurd h1.symm hne
        · exact h1
      have hxa : ¬ a = x := fun hh => hne hh.symm
      cases n with
      | zero => simp [List.take_succ_cons, hxa]
      | succ m =>
        rw [Nat.succ_le_succ_iff, ih ha m, List.take_succ_cons, List.mem_cons]
        simp [hxa]

theorem getD_take_succ (l : List String) (i : Nat) (d : String) :
    (l.take (i + 1)).getD i d = l.getD i d := by
  induction l generalizing i with
  | nil => simp
  | cons x xs ih =>
    cases i with
    | zero => simp
    | succ n => simp only [List.take_succ_cons, List.getD_cons_succ]; exact ih n

theorem length_insertAt (n : Nat) (a : String) (l : List String) :
    (insertAt n a l).length = l.length + 1 := by
  induction l generalizing n with
  | nil => cases n <;> simp [insertAt]
  | cons x xs ih => cases n <;> simp [insertAt, ih]

theorem perm_insertAt (n : Nat) (a : String) (l : List String) :
    (insertAt n a l).Perm (a :: l) := by
  induction l generalizing n with
  | nil => cases n <;> simp [insertAt]
  | cons x xs ih =>
    cases n with
    | zero => simp [insertAt]
    | succ m =>
      simp only [insertAt]
      exact ((ih m).cons x).trans (List.Perm.swap a x xs)

theorem perm_getD_cons_eraseAt {l : List String} {j : Nat} (h : j < l.length) (d : String) :
    l.Perm (l.getD j d :: eraseAt j l) := by
  induction l generalizing j with
  | nil => simp at h
  | cons x xs ih =>
    cases j with
    | zero => simp [eraseAt]
    | succ m =>
      have hm : m < xs.length := by simpa using h
      simp only [eraseAt, List.getD_cons_succ]
      exact ((ih hm).cons x).trans (List.Perm.swap _ _ _)

theorem moveNameTo_perm {l : List String} {j index : Nat} (hj : j < l.length) :
    (moveNameTo l j index).Perm l :=
  (perm_insertAt index (l.getD j "") (eraseAt j l)).trans
    (perm_getD_cons_eraseAt hj "").symm

theorem take_insertAt {n : Nat} {l : List String} (h : n ≤ l.length) (a : String) :
    (insertAt n a l).take n = l.take n := by
  induction n generalizing l with
  | zero => simp
  | succ m ih =>
    cases l with
    | nil => simp at h
    | cons x xs =>
      simp only [insertAt, List.take_succ_cons]
      rw [ih (by simpa using h) ]

theorem take_eraseAt {n j : Nat} (h : n ≤ j) (l : List String) :
    (eraseAt j l).take n = l.take n := by
  induction l generalizing n j with
  | nil => simp [eraseAt]
  | cons x xs ih =>
    cases j with
    | zero =>
      have : n = 0 := Nat.le_zero.mp h
      simp [this]
    | succ m =>
      cases n with
      | zero => simp
      | succ k =>
        simp only [eraseAt, List.take_succ_cons]
        rw [ih (Nat.le_of_succ_le_succ h)]

theorem getD_insertAt {n : Nat} {l : List String} (h : n ≤ l.length) (a d : String) :
    (insertAt n a l).getD n d = a := by
  induction n generalizing l with
  | zero => simp [insertAt]
  | succ m ih =>
    cases l with
    | nil => simp at h
    | cons x xs =>
      simp only [insertAt, List.getD_cons_succ]
      exact ih (by simpa using h)

theorem getD_map {α β : Type} (f : α → β) {l : List α} {i : Nat} (h : i < l.length)
    (d : α) (d' : β) : (l.map f).getD i d' = f (l.getD i d) := by
  induction l generalizing i with
  | nil => simp at h
  | cons x xs ih =>
    cases i with
    | zero => simp
    | succ n => simpa using ih (by simpa using h)

theorem length_eraseAt {j : Nat} {l : List String} (h : j < l.length) :
    (eraseAt j l).length = l.length - 1 := by
  induction l generalizing j with
  | nil => simp at h
  | cons x xs ih =>
    cases j with
    | zero => simp [eraseAt]
    | succ m =>
      have hm : m < xs.length := by simpa using h
      simp only [eraseAt, List.length_cons, ih hm]
      omega

theorem moveNameTo_length {l : List String} {j index : Nat} (hj : j < l.length) :
    (moveNameTo l j index).length = l.length :=
  ((moveNameTo_perm hj).length_eq : _)

theorem take_mono_of_take_eq {l₁ l₂ : List String} {n k : Nat} (hk : k ≤ n)
    (h : l₁.take n = l₂.take n) : l₁.take k = l₂.take k := by
  have h1 : (l₁.take n).take k = l₁.take k := by
    rw [List.take_take, Nat.min_eq_left hk]
  have h2 : (l₂.take n).take k = l₂.take k := by
    rw [List.take_take, Nat.min_eq_left hk]
  rw [← h1, h, h2]

/-! ## thingLookup -/

theorem thingLookup_name {things : List Thing} {n : String} {t : Thing}
    (h : thingLookup things n = some t) : t.name = n := by
  induction things with
  | nil => simp [thingLookup] at h
  | cons x xs ih =>
    simp only [thingLookup] at h
    cases hxs : thingLookup xs n with
    | some r =>
      rw [hxs] at h
      cases h
      exact ih hxs
    | none =>
      rw [hxs] at h
      by_cases he : x.name = n
      · rw [if_pos he] at h
        cases h
        exact he
      · rw [if_neg he] at h
        simp at h

theorem mem_map_name_iff_lookup {things : List Thing} {n : String} :
    n ∈ things.map Thing.name ↔ ∃ t, thingLookup things n = some t := by
  induction things with
  | nil => simp [thingLookup]
  | cons x xs ih =>
    simp only [List.map_cons, List.mem_cons, thingLookup]
    cases hxs : thingLookup xs n with
    | some r =>
      constructor
      · intro _; exact ⟨r, rfl⟩
      · intro _; right; exact ih.mpr ⟨r, hxs⟩
    | none =>
      constructor
      · intro h
        rcases h with h | h
        · exact ⟨x, by simp [h.symm]⟩
        · rcases ih.mp h with ⟨t, ht⟩
          rw [hxs] at ht
          simp at ht
      · intro ⟨t, ht⟩
        by_cases he : x.name = n
        · exact Or.inl he.symm
        · rw [if_neg he] at ht
          simp at ht

theorem thingLookup_of_mem_nodup {things : List Thing} {t : Thing}
    (hnd : (things.map Thing.name).Nodup) (ht : t ∈ things) :
    thingLookup things t.name = some t := by
  induction things with
  | nil => simp at ht
  | cons x xs ih =>
    have hnd' : (xs.map Thing.name).Nodup := (List.nodup_cons.mp hnd).2
    have hxn : x.name ∉ xs.map Thing.name := (List.nodup_cons.mp hnd).1
    rcases List.mem_cons.mp ht with rfl | hmem
    · have hnone : thingLookup xs t.name = none := by
        cases hl : thingLookup xs t.name with
        | none => rfl
        | some r => exact absurd (mem_map_name_iff_lookup.mpr ⟨r, hl⟩) hxn
      simp [thingLookup, hnone]
    · simp [thingLookup, ih hnd' hmem]

theorem map_lookup_of_nodup {things : List Thing}
    (hnd : (things.map Thing.name).Nodup) :
    (things.map Thing.name).map (lookupFn things) = things := by
  rw [List.map_map]
  have he : ∀ t ∈ things, (lookupFn things ∘ Thing.name) t = id t := by
    intro t ht
    simp only [Function.comp_apply, id_eq, lookupFn,
      thingLookup_of_mem_nodup hnd ht, Option.getD_some]
  rw [List.map_congr_left he, List.map_id]

/-! ## scanDeps -/

theorem scanDeps_some {warn : Bool} {name : String} {index : Nat} {names : List String} :
    ∀ {deps : List String} {j : Nat},
    (scanDeps warn name index names deps).2 = some j →
    ∃ dep, dep ∈ deps ∧ dep ∈ names ∧ j = idxOf dep names ∧ index < j := by
  intro deps
  induction deps with
  | nil => intro j h; simp [scanDeps] at h
  | cons dep rest ih =>
    intro j h
    simp only [scanDeps] at h
    split at h
    · next hmem =>
      split at h
      · next hlt =>
        cases h
        exact ⟨dep, by simp, hmem, rfl, hlt⟩
      · rcases ih h with ⟨d, hd, h2, h3, h4⟩
        exact ⟨d, by simp [hd], h2, h3, h4⟩
    · rcases ih h with ⟨d, hd, h2, h3, h4⟩
      exact ⟨d, by simp [hd], h2, h3, h4⟩

theorem scanDeps_none_iff {warn : Bool} {name : String} {index : Nat} {names : List String} :
    ∀ {deps : List String},
    (scanDeps warn name index names deps).2 = none ↔
      ∀ dep ∈ deps, dep ∈ names → idxOf dep names ≤ index := by
  intro deps
  induction deps with
  | nil => simp [scanDeps]
  | cons dep rest ih =>
    simp only [scanDeps]
    split
    · next hmem =>
      split
      · next hlt =>
        constructor
        · intro h; simp at h
        · intro h; exact absurd (h dep (by simp) hmem) (by omega)
      · next hnlt =>
        rw [ih]
        constructor
        · intro h d hd hdn
          rcases List.mem_cons.mp hd with rfl | hd'
          · exact Nat.le_of_not_lt hnlt
          · exact h d hd' hdn
        · intro h d hd hdn
          exact h d (List.mem_cons_of_mem _ hd) hdn
    · next hmem =>
      rw [ih]
      constructor
      · intro h d hd hdn
        rcases List.mem_cons.mp hd with rfl | hd'
        · exact absurd hdn hmem
        · exact h d hd' hdn
      · intro h d hd hdn
        exact h d (List.mem_cons_of_mem _ hd) hdn

theorem scanDeps_warns {name : String} {index : Nat} {names : List String} :
    ∀ {deps : List String},
    (scanDeps true name index names deps).2 = none →
    ∀ dep ∈ deps, dep ∉ names → (name, dep) ∈ (scanDeps true name index names deps).1 := by
  intro deps
  induction deps with
  | nil => intro _ dep hd; simp at hd
  | cons dep rest ih =>
    intro h d hd hdn
    by_cases hmem : dep ∈ names
    · by_cases hlt : index < idxOf dep names
      · simp only [scanDeps, if_pos hmem, if_pos hlt] at h
        simp at h
      · simp only [scanDeps, if_pos hmem, if_neg hlt] at h ⊢
        rcases List.mem_cons.mp hd with rfl | hd'
        · exact absurd hmem hdn
        · exact ih h d hd' hdn
    · simp only [scanDeps, if_neg hmem, if_pos rfl] at h ⊢
      rcases List.mem_cons.mp hd with rfl | hd'
      · simp
      · simp only [List.mem_append]
        exact Or.inr (ih h d hd' hdn)

/-! ## The settle loop -/

theorem seenChain_walk {things : List Thing} :
    ∀ {l : List String} {c : String}, SeenChain things l → c ∈ l →
    Relation.ReflTransGen (DepEdge things) c (l.headD "") := by
  intro l
  induction l with
  | nil => intro c _ hc; simp at hc
  | cons a rest ih =>
    intro c hch hc
    rcases List.mem_cons.mp hc with rfl | hc'
    · exact Relation.ReflTransGen.refl
    · cases rest with
      | nil => simp at hc'
      | cons b t =>
        simp only [SeenChain] at hch
        exact (ih hch.2 hc').tail hch.1

theorem settle_ok {warn : Bool} {things : List Thing} {index : Nat} :
    ∀ {fuel : Nat} {seen names acc names' acc'},
    settle warn things index fuel seen names acc = SolveRes.ok names' acc' →
    names'.Perm names ∧ names'.take index = names.take index ∧
      SettledAt things names' index ∧ (∃ tl, acc' = acc ++ tl) ∧
      (warn = true → ∀ dep ∈ depsOf things (names'.getD index ""), dep ∉ names' →
        (names'.getD index "", dep) ∈ acc') := by
  intro fuel
  induction fuel with
  | zero => intro seen names acc names' acc' h; simp [settle] at h
  | succ fuel ih =>
    intro seen names acc names' acc' h
    simp only [settle] at h
    by_cases hseen : names.getD index "" ∈ seen
    · rw [if_pos hseen] at h
      simp at h
    · rw [if_neg hseen] at h
      cases hscan : (scanDeps warn (names.getD index "") index names
          (depsOf things (names.getD index ""))).2 with
      | none =>
        rw [hscan] at h
        cases h
        refine ⟨List.Perm.refl _, rfl, ?_, ⟨_, rfl⟩, ?_⟩
        · intro dep hdep hmem
          exact scanDeps_none_iff.mp hscan dep hdep hmem
        · intro hw dep hdep hmem
          subst hw
          exact List.mem_append_right _ (scanDeps_warns hscan dep hdep hmem)
      | some j =>
        rw [hscan] at h
        obtain ⟨d, hdmem, hdnames, hj, hlt⟩ := scanDeps_some hscan
        have hjlen : j < names.length := hj ▸ idxOf_lt_length hdnames
        obtain ⟨p1, p2, p3, p4, p5⟩ := ih h
        refine ⟨p1.trans (moveNameTo_perm hjlen), ?_, p3, ?_, p5⟩
        · rw [p2]
          unfold moveNameTo
          rw [take_insertAt (by rw [length_eraseAt hjlen]; omega),
            take_eraseAt (Nat.le_of_lt hlt)]
        · obtain ⟨tl, htl⟩ := p4
          exact ⟨_, by rw [htl, List.append_assoc]⟩

theorem settle_not_fuelout {warn : Bool} {things : List Thing} {index : Nat} :
    ∀ {fuel : Nat} {seen names : List String} {acc},
    seen.Nodup → (∀ x ∈ seen, x ∈ names) → index < names.length →
    names.length + 1 ≤ fuel + seen.length →
    settle warn things index fuel seen names acc ≠ SolveRes.fuelout := by
  intro fuel
  induction fuel with
  | zero =>
    intro seen names acc hnd hsub hidx hfuel hcon
    have hle : seen.length ≤ names.length :=
      (hnd.subperm (fun {x} hx => hsub x hx)).length_le
    omega
  | succ fuel ih =>
    intro seen names acc hnd hsub hidx hfuel hcon
    simp only [settle] at hcon
    by_cases hseen : names.getD index "" ∈ seen
    · rw [if_pos hseen] at hcon
      simp at hcon
    · rw [if_neg hseen] at hcon
      cases hscan : (scanDeps warn (names.getD index "") index names
          (depsOf things (names.getD index ""))).2 with
      | none =>
        rw [hscan] at hcon
        simp at hcon
      | some j =>
        rw [hscan] at hcon
        obtain ⟨d, _, hdnames, hj, hlt⟩ := scanDeps_some hscan
        have hjlen : j < names.length := hj ▸ idxOf_lt_length hdnames
        have hperm : (moveNameTo names j index).Perm names := moveNameTo_perm hjlen
        refine ih ?_ ?_ ?_ ?_ hcon
        · exact List.nodup_cons.mpr ⟨hseen, hnd⟩
        · intro x hx
          rcases List.mem_cons.mp hx with rfl | hx'
          · exact hperm.mem_iff.mpr (getD_mem hidx "")
          · exact hperm.mem_iff.mpr (hsub x hx')
        · rw [moveNameTo_length hjlen]
          exact hidx
        · rw [moveNameTo_length hjlen]
          simp only [List.length_cons]
          omega

theorem settle_circular {warn : Bool} {things : List Thing} {index : Nat} :
    ∀ {fuel : Nat} {seen names : List String} {acc m acc₂},
    settle warn things index fuel seen names acc = SolveRes.circular m acc₂ →
    index < names.length →
    (∀ x ∈ names, x ∈ things.map Thing.name) →
    SeenChain things seen →
    HeadOk things seen (names.getD index "") →
    m = "Detected circular dependency!" ∧
      ∃ x, Relation.TransGen (DepEdge things) x x := by
  intro fuel
  induction fuel with
  | zero => intro seen names acc m acc₂ h; simp [settle] at h
  | succ fuel ih =>
    intro seen names acc m acc₂ h hidx hm hch hhd
    simp only [settle] at h
    by_cases hseen : names.getD index "" ∈ seen
    · rw [if_pos hseen] at h
      cases h
      refine ⟨rfl, ?_⟩
      cases hsn : seen with
      | nil =>
        rw [hsn] at hseen
        simp at hseen
      | cons s rest =>
        rw [hsn] at hhd hch hseen
        simp only [HeadOk] at hhd
        have hw : Relation.ReflTransGen (DepEdge things) (names.getD index "") s :=
          seenChain_walk hch hseen
        exact ⟨_, Relation.TransGen.tail' hw hhd⟩
    · rw [if_neg hseen] at h
      cases hscan : (scanDeps warn (names.getD index "") index names
          (depsOf things (names.getD index ""))).2 with
      | none =>
        rw [hscan] at h
        simp at h
      | some j =>
        rw [hscan] at h
        obtain ⟨d, hdmem, hdnames, hj, hlt⟩ := scanDeps_some hscan
        have hjlen : j < names.length := hj ▸ idxOf_lt_length hdnames
        have hgd : (moveNameTo names j index).getD index "" = d := by
          unfold moveNameTo
          rw [getD_insertAt (by rw [length_eraseAt hjlen]; omega)]
          exact hj ▸ getD_idxOf hdnames ""
        have hedge : DepEdge things (names.getD index "")
            ((moveNameTo names j index).getD index "") := by
          rw [hgd]
          exact ⟨hm _ (getD_mem hidx ""), hm _ hdnames, hdmem⟩
        refine ih h ?_ ?_ ?_ ?_
        · rw [moveNameTo_length hjlen]
          exact hidx
        · intro x hx
          exact hm x ((moveNameTo_perm hjlen).mem_iff.mp hx)
        · cases seen with
          | nil => trivial
          | cons s rest =>
            simp only [HeadOk] at hhd
            exact ⟨hhd, hch⟩
        · exact hedge

/-! ## The outer loop -/

theorem settledAt_stable {things : List Thing} {names₁ names₂ : List String} {i : Nat}
    (hp : names₂.Perm names₁) (ht : names₂.take (i + 1) = names₁.take (i + 1))
    (h : SettledAt things names₁ i) : SettledAt things names₂ i := by
  have hgd : names₂.getD i "" = names₁.getD i "" := by
    rw [← getD_take_succ names₂ i "", ht, getD_take_succ]
  intro dep hdep hmem
  rw [hgd] at hdep
  have hmem1 : dep ∈ names₁ := hp.mem_iff.mp hmem
  have h1 : idxOf dep names₁ ≤ i := h dep hdep hmem1
  have h2 : dep ∈ names₁.take (i + 1) := (idxOf_le_iff_mem_take hmem1 i).mp h1
  rw [← ht] at h2
  exact (idxOf_le_iff_mem_take hmem i).mpr h2

theorem solveLoop_ok {warn : Bool} {things : List Thing} :
    ∀ {k index : Nat} {names acc names' acc'},
    solveLoop warn things k index names acc = SolveRes.ok names' acc' →
    index + k = names.length →
    (∀ i, i < index → SettledAt things names i) →
    names'.Perm names ∧ names'.take index = names.take index ∧
      (∀ i, i < names'.length → SettledAt things names' i) ∧
      (∃ tl, acc' = acc ++ tl) ∧
      (warn = true → ∀ i, index ≤ i → i < names'.length →
        ∀ dep ∈ depsOf things (names'.getD i ""), dep ∉ names' →
          (names'.getD i "", dep) ∈ acc') := by
  intro k
  induction k with
  | zero =>
    intro index names acc names' acc' h hk hpre
    simp only [solveLoop] at h
    cases h
    refine ⟨List.Perm.refl _, rfl, ?_, ⟨[], (List.append_nil _).symm⟩, ?_⟩
    · intro i hi
      exact hpre i (by omega)
    · intro _ i hge hlt _ _ _
      exfalso
      omega
  | succ k ih =>
    intro index names acc names' acc' h hk hpre
    simp only [solveLoop] at h
    cases hst : settle warn things index (names.length + 1) [] names acc with
    | ok names₁ acc₁ =>
      rw [hst] at h
      obtain ⟨s1, s2, s3, s4, s5⟩ := settle_ok hst
      have hlen1 : names₁.length = names.length := s1.length_eq
      have hpre1 : ∀ i, i < index + 1 → SettledAt things names₁ i := by
        intro i hi
        rcases Nat.lt_succ_iff_lt_or_eq.mp hi with hi' | rfl
        · exact settledAt_stable s1 (take_mono_of_take_eq (by omega) s2) (hpre i hi')
        · exact s3
      obtain ⟨q1, q2, q3, q4, q5⟩ := ih h (by omega) hpre1
      refine ⟨q1.trans s1, ?_, q3, ?_, ?_⟩
      · have hq2 : names'.take index = names₁.take index :=
          take_mono_of_take_eq (Nat.le_succ index) q2
        rw [hq2, s2]
      · obtain ⟨t1, ht1⟩ := s4
        obtain ⟨t2, ht2⟩ := q4
        exact ⟨_, by rw [ht2, ht1, List.append_assoc]⟩
      · intro hw i hge hlt
        rcases Nat.eq_or_lt_of_le hge with rfl | hgt
        · intro dep hdep hmem
          have hgd : names'.getD index "" = names₁.getD index "" := by
            rw [← getD_take_succ names' index "", q2, getD_take_succ]
          rw [hgd] at hdep ⊢
          have hmem1 : dep ∉ names₁ := fun hc => hmem (q1.mem_iff.mpr hc)
          have hin := s5 hw dep hdep hmem1
          obtain ⟨t2, ht2⟩ := q4
          rw [ht2]
          exact List.mem_append_left _ hin
        · exact q5 hw i hgt hlt
    | circular m a =>
      rw [hst] at h
      simp at h
    | fuelout =>
      rw [hst] at h
      simp at h

theorem solveLoop_not_fuelout {warn : Bool} {things : List Thing} :
    ∀ {k index : Nat} {names acc},
    index + k = names.length →
    solveLoop warn things k index names acc ≠ SolveRes.fuelout := by
  intro k
  induction k with
  | zero =>
    intro index names acc hk hcon
    simp [solveLoop] at hcon
  | succ k ih =>
    intro index names acc hk hcon
    simp only [solveLoop] at hcon
    cases hst : settle warn things index (names.length + 1) [] names acc with
    | ok names₁ acc₁ =>
      rw [hst] at hcon
      have hlen1 := (settle_ok hst).1.length_eq
      exact ih (by omega) hcon
    | circular m a =>
      rw [hst] at hcon
      simp at hcon
    | fuelout =>
      exact settle_not_fuelout List.nodup_nil (by simp) (by omega) (by omega) hst

theorem solveLoop_circular {warn : Bool} {things : List Thing} :
    ∀ {k index : Nat} {names acc m acc₂},
    solveLoop warn things k index names acc = SolveRes.circular m acc₂ →
    index + k = names.length →
    (∀ x ∈ names, x ∈ things.map Thing.name) →
    m = "Detected circular dependency!" ∧
      ∃ x, Relation.TransGen (DepEdge things) x x := by
  intro k
  induction k with
  | zero =>
    intro index names acc m acc₂ h hk hm
    simp [solveLoop] at h
  | succ k ih =>
    intro index names acc m acc₂ h hk hm
    simp only [solveLoop] at h
    cases hst : settle warn things index (names.length + 1) [] names acc with
    | ok names₁ acc₁ =>
      rw [hst] at h
      have s1 := (settle_ok hst).1
      exact ih h (by have := s1.length_eq; omega) (fun x hx => hm x (s1.mem_iff.mp hx))
    | circular m₁ a₁ =>
      rw [hst] at h
      cases h
      exact settle_circular hst (by omega) hm trivial trivial
    | fuelout =>
      rw [hst] at h
      simp at h

theorem solveLoop_settled {warn : Bool} {things : List Thing} {names : List String}
    (hset : ∀ i, i < names.length → SettledAt things names i) :
    ∀ {k index : Nat} {acc}, index + k = names.length →
    ∃ tl, solveLoop warn things k index names acc = SolveRes.ok names (acc ++ tl) := by
  intro k
  induction k with
  | zero =>
    intro index acc hk
    exact ⟨[], by simp [solveLoop]⟩
  | succ k ih =>
    intro index acc hk
    have hidx : index < names.length := by omega
    have hscan : (scanDeps warn (names.getD index "") index names
        (depsOf things (names.getD index ""))).2 = none :=
      scanDeps_none_iff.mpr (hset index hidx)
    have hseen : names.getD index "" ∉ ([] : List String) := by simp
    have hsettle : settle warn things index (names.length + 1) [] names acc =
        SolveRes.ok names (acc ++ (scanDeps warn (names.getD index "") index names
          (depsOf things (names.getD index ""))).1) := by
      simp only [settle]
      rw [if_neg hseen, hscan]
    obtain ⟨tl, htl⟩ := @ih (index + 1)
      (acc ++ (scanDeps warn (names.getD index "") index names
        (depsOf things (names.getD index ""))).1) (by omega)
    refine ⟨(scanDeps warn (names.getD index "") index names
      (depsOf things (names.getD index ""))).1 ++ tl, ?_⟩
    simp only [solveLoop, hsettle]
    rw [htl, List.append_assoc]

/-! ## Top-level facts about solve_dependencies -/

theorem solve_not_fuelout (things : List Thing) (warn : Bool) :
    solve_dependencies things warn ≠ SolveRes.fuelout := by
  intro hcon
  simp only [solve_dependencies] at hcon
  cases hsl : solveLoop warn things (things.map Thing.name).length 0
      (things.map Thing.name) [] with
  | ok ns acc => rw [hsl] at hcon; simp at hcon
  | circular m a => rw [hsl] at hcon; simp at hcon
  | fuelout => exact solveLoop_not_fuelout (by omega) hsl

theorem solve_ok_elim {things : List Thing} {warn : Bool} {res : List Thing}
    {acc : List (String × String)}
    (h : solve_dependencies things warn = SolveRes.ok res acc) :
    ∃ names', names'.Perm (things.map Thing.name) ∧
      res = names'.map (lookupFn things) ∧
      (∀ i, i < names'.length → SettledAt things names' i) ∧
      (warn = true → ∀ i, i < names'.length →
        ∀ dep ∈ depsOf things (names'.getD i ""), dep ∉ names' →
          (names'.getD i "", dep) ∈ acc) := by
  simp only [solve_dependencies] at h
  cases hsl : solveLoop warn things (things.map Thing.name).length 0
      (things.map Thing.name) [] with
  | ok ns a =>
    rw [hsl] at h
    cases h
    obtain ⟨q1, _, q3, _, q5⟩ := solveLoop_ok hsl (by omega)
      (by intro i hi; exact absurd hi (Nat.not_lt_zero i))
    exact ⟨ns, q1, rfl, q3, fun hw i hi => q5 hw i (Nat.zero_le i) hi⟩
  | circular m a => rw [hsl] at h; simp at h
  | fuelout => rw [hsl] at h; simp at h

theorem solve_circular_elim {things : List Thing} {warn : Bool} {m : String}
    {acc : List (String × String)}
    (h : solve_dependencies things warn = SolveRes.circular m acc) :
    m = "Detected circular dependency!" ∧
      ∃ x, Relation.TransGen (DepEdge things) x x := by
  simp only [solve_dependencies] at h
  cases hsl : solveLoop warn things (things.map Thing.name).length 0
      (things.map Thing.name) [] with
  | ok ns a => rw [hsl] at h; simp at h
  | circular m₁ a₁ =>
    rw [hsl] at h
    cases h
    exact solveLoop_circular hsl (by omega) (fun x hx => hx)
  | fuelout => rw [hsl] at h; simp at h

theorem acyclic_of_rank (things : List Thing) (rank : String → Nat)
    (h : ∀ a ∈ things.map Thing.name, ∀ b ∈ things.map Thing.name,
      b ∈ depsOf things a → rank b < rank a) :
    ∀ x, ¬ Relation.TransGen (DepEdge things) x x := by
  have key : ∀ {a b}, Relation.TransGen (DepEdge things) a b → rank b < rank a := by
    intro a b hab
    induction hab with
    | single h1 => exact h _ h1.1 _ h1.2.1 h1.2.2
    | tail _ h2 ih => exact lt_trans (h _ h2.1 _ h2.2.1 h2.2.2) ih
  intro x hx
  exact absurd (key hx) (lt_irrefl _)

theorem transGen_exists_edge {r : String → String → Prop} {a b : String}
    (h : Relation.TransGen r a b) : ∃ c, r a c := by
  induction h with
  | single h1 => exact ⟨_, h1⟩
  | tail _ _ ih => exact ih

theorem settled_edge_le {things : List Thing} {names' : List String}
    (hmm : ∀ x ∈ things.map Thing.name, x ∈ names')
    (hset : ∀ i, i < names'.length → SettledAt things names' i) :
    ∀ {a b}, Relation.TransGen (DepEdge things) a b →
      idxOf b names' ≤ idxOf a names' := by
  have single : ∀ {a b}, DepEdge things a b → idxOf b names' ≤ idxOf a names' := by
    intro a b he
    have ha : a ∈ names' := hmm a he.1
    have hb : b ∈ names' := hmm b he.2.1
    have hi : idxOf a names' < names'.length := idxOf_lt_length ha
    have hs := hset (idxOf a names') hi
    exact hs b (by rw [getD_idxOf ha]; exact he.2.2) hb
  intro a b h
  induction h with
  | single h1 => exact single h1
  | tail _ h2 ih => exact le_trans (single h2) ih

/-! ## lookupFn facts -/

theorem thingLookup_mem {things : List Thing} {n : String} {t : Thing}
    (h : thingLookup things n = some t) : t ∈ things := by
  induction things with
  | nil => simp [thingLookup] at h
  | cons x xs ih =>
    simp only [thingLookup] at h
    cases hxs : thingLookup xs n with
    | some r =>
      rw [hxs] at h
      cases h
      exact List.mem_cons_of_mem _ (ih hxs)
    | none =>
      rw [hxs] at h
      by_cases he : x.name = n
      · rw [if_pos he] at h
        cases h
        exact List.mem_cons_self _ _
      · rw [if_neg he] at h
        simp at h

theorem lookupFn_name {things : List Thing} {n : String}
    (h : n ∈ things.map Thing.name) : (lookupFn things n).name = n := by
  obtain ⟨t, ht⟩ := mem_map_name_iff_lookup.mp h
  simp [lookupFn, ht, thingLookup_name ht]

theorem lookupFn_deps (things : List Thing) (n : String) :
    (lookupFn things n).deps = depsOf things n := by
  cases ht : thingLookup things n with
  | none =>
    simp only [lookupFn, depsOf, ht, Option.getD_none, Option.map_none']
    rfl
  | some t => simp [lookupFn, depsOf, ht]

theorem map_name_map_lookup {things : List Thing} {ns : List String}
    (h : ∀ n ∈ ns, n ∈ things.map Thing.name) :
    (ns.map (lookupFn things)).map Thing.name = ns := by
  rw [List.map_map]
  have he : ∀ n ∈ ns, (Thing.name ∘ lookupFn things) n = id n := by
    intro n hn
    simp only [Function.comp_apply, id_eq]
    exact lookupFn_name (h n hn)
  rw [List.map_congr_left he, List.map_id]

theorem thingLookup_map_lookup {things : List Thing} :
    ∀ {ns : List String}, (∀ n ∈ ns, n ∈ things.map Thing.name) →
    ∀ {n}, n ∈ ns →
      thingLookup (ns.map (lookupFn things)) n = thingLookup things n := by
  intro ns
  induction ns with
  | nil => intro _ n hn; simp at hn
  | cons a rest ih =>
    intro hns n hn
    have hrest : ∀ n ∈ rest, n ∈ things.map Thing.name :=
      fun n hn => hns n (List.mem_cons_of_mem _ hn)
    simp only [List.map_cons, thingLookup]
    by_cases hmem : n ∈ rest
    · rw [ih hrest hmem]
      obtain ⟨t, ht⟩ := mem_map_name_iff_lookup.mp (hns n (List.mem_cons_of_mem _ hmem))
      rw [ht]
    · have hna : n = a := by
        rcases List.mem_cons.mp hn with h1 | h1
        · exact h1
        · exact absurd h1 hmem
      subst hna
      have hnone : thingLookup (rest.map (lookupFn things)) n = none := by
        cases hl : thingLookup (rest.map (lookupFn things)) n with
        | none => rfl
        | some r =>
          have hrn : r.name = n := thingLookup_name hl
          have hrm : r ∈ rest.map (lookupFn things) := thingLookup_mem hl
          obtain ⟨m, hmrest, hfm⟩ := List.mem_map.mp hrm
          have hmn : r.name = m := by rw [← hfm]; exact lookupFn_name (hrest m hmrest)
          have : n ∈ rest := by rw [← hrn, hmn]; exact hmrest
          exact absurd this hmem
      rw [hnone]
      obtain ⟨ta, hta⟩ := mem_map_name_iff_lookup.mp (hns n (List.mem_cons_self _ _))
      rw [if_pos (lookupFn_name (hns n (List.mem_cons_self _ _)))]
      rw [hta]
      simp [lookupFn, hta]

/-! ## Claims about the resolver -/

/-- C1: for every input sequence of items with pairwise-distinct names whose
dependency graph (restricted to names present in the sequence) is acyclic,
`solve_dependencies` returns a permutation of the input items in which, for
every item, every dependency of that item whose name occurs in the sequence
appears at a strictly earlier position than the item itself. -/
theorem claim1_solve_topological (things : List Thing) (warn : Bool)
    (hnd : (things.map Thing.name).Nodup)
    (hac : ∀ x, ¬ Relation.TransGen (DepEdge things) x x) :
    ∃ res acc, solve_dependencies things warn = SolveRes.ok res acc ∧
      res.Perm things ∧
      ∀ i, i < res.length → ∀ dep, dep ∈ (res.getD i default).deps →
        dep ∈ things.map Thing.name →
        ∃ j, j < i ∧ (res.getD j default).name = dep := by
  cases hres : solve_dependencies things warn with
  | fuelout => exact absurd hres (solve_not_fuelout things warn)
  | circular m acc =>
    obtain ⟨_, x, hx⟩ := solve_circular_elim hres
    exact absurd hx (hac x)
  | ok res acc =>
    obtain ⟨names', q1, q2, q3, _⟩ := solve_ok_elim hres
    subst q2
    have hlenr : ((names'.map (lookupFn things)).length) = names'.length :=
      List.length_map _ _
    refine ⟨_, _, rfl, ?_, ?_⟩
    · refine (q1.map (lookupFn things)).trans ?_
      rw [map_lookup_of_nodup hnd]
    · intro i hi dep hdep hpres
      rw [hlenr] at hi
      rw [getD_map (lookupFn things) hi "" default, lookupFn_deps] at hdep
      have hmem' : dep ∈ names' := q1.mem_iff.mpr hpres
      have hle : idxOf dep names' ≤ i := q3 i hi dep hdep hmem'
      have hj : idxOf dep names' < names'.length := idxOf_lt_length hmem'
      have hgetj : names'.getD (idxOf dep names') "" = dep := getD_idxOf hmem' ""
      have hne : idxOf dep names' ≠ i := by
        intro heq
        have hdi : names'.getD i "" = dep := by rw [← heq, hgetj]
        have hself : DepEdge things dep dep := by
          refine ⟨hpres, hpres, ?_⟩
          rw [hdi] at hdep
          exact hdep
        exact absurd (Relation.TransGen.single hself) (hac dep)
      refine ⟨idxOf dep names', by omega, ?_⟩
      rw [getD_map (lookupFn things) hj "" default, hgetj]
      exact lookupFn_name hpres

/-- Witness for C1: the acyclic three-item example from the spec, with the
rank function discharging the acyclicity hypothesis. -/
theorem claim1_witness :
    ∃ res acc,
      solve_dependencies [⟨"c", ["a"], 0⟩, ⟨"a", [], 0⟩, ⟨"b", ["a"], 0⟩] false
        = SolveRes.ok res acc ∧
      res.Perm [⟨"c", ["a"], 0⟩, ⟨"a", [], 0⟩, ⟨"b", ["a"], 0⟩] ∧
      ∀ i, i < res.length → ∀ dep, dep ∈ (res.getD i default).deps →
        dep ∈ ([⟨"c", ["a"], 0⟩, ⟨"a", [], 0⟩, ⟨"b", ["a"], 0⟩] : List Thing).map Thing.name →
        ∃ j, j < i ∧ (res.getD j default).name = dep :=
  claim1_solve_topological _ false (by decide)
    (acyclic_of_rank _ (fun n => if n = "a" then 0 else 1) (by decide))

/-- C2 (amended): on any input whose present-name dependency graph has a
cycle through at least two distinct names, `solve_dependencies` raises the
circular-dependency error with the fixed message
`Detected circular dependency!` (which does not carry the offending name)
and produces no ordering. -/
theorem claim2_cycle_error (things : List Thing) (warn : Bool) (x y : String)
    (hxy : x ≠ y)
    (h1 : Relation.TransGen (DepEdge things) x y)
    (h2 : Relation.TransGen (DepEdge things) y x) :
    ∃ acc, solve_dependencies things warn
      = SolveRes.circular "Detected circular dependency!" acc := by
  cases hres : solve_dependencies things warn with
  | fuelout => exact absurd hres (solve_not_fuelout things warn)
  | circular m acc =>
    obtain ⟨hm, _⟩ := solve_circular_elim hres
    exact ⟨acc, by rw [← hm]⟩
  | ok res acc =>
    exfalso
    obtain ⟨names', q1, _, q3, _⟩ := solve_ok_elim hres
    have hmm : ∀ z ∈ things.map Thing.name, z ∈ names' :=
      fun z hz => q1.mem_iff.mpr hz
    have hle1 : idxOf y names' ≤ idxOf x names' := settled_edge_le hmm q3 h1
    have hle2 : idxOf x names' ≤ idxOf y names' := settled_edge_le hmm q3 h2
    have heq : idxOf x names' = idxOf y names' := Nat.le_antisymm hle2 hle1
    obtain ⟨c1, hc1⟩ := transGen_exists_edge h1
    obtain ⟨c2, hc2⟩ := transGen_exists_edge h2
    have hxmem : x ∈ names' := hmm x hc1.1
    have hymem : y ∈ names' := hmm y hc2.1
    exact hxy (by rw [← getD_idxOf hxmem "", heq, getD_idxOf hymem])

/-- Counterexample to C2 as stated: the raised error does not carry the
offending name (its message is the fixed string
`Detected circular dependency!`, which contains none of the cycle's names),
and an item depending only on itself is a dependency cycle on which
`solve_dependencies` raises nothing and returns normally. -/
theorem claim2_counterexample :
    solve_dependencies [⟨"aa", ["bb"], 0⟩, ⟨"bb", ["cc"], 0⟩, ⟨"cc", ["aa"], 0⟩] false
        = SolveRes.circular "Detected circular dependency!" [] ∧
      ¬ ("aa".data <:+: "Detected circular dependency!".data) ∧
      ¬ ("bb".data <:+: "Detected circular dependency!".data) ∧
      ¬ ("cc".data <:+: "Detected circular dependency!".data) ∧
      solve_dependencies [⟨"aa", ["aa"], 0⟩] false
        = SolveRes.ok [⟨"aa", ["aa"], 0⟩] [] :=
  ⟨by decide, by decide, by decide, by decide, by decide⟩

/-- Witness for C2 (amended): the three-name chain aa→bb→cc→aa raises the
fixed-message circular-dependency error. -/
theorem claim2_witness :
    ∃ acc, solve_dependencies [⟨"aa", ["bb"], 0⟩, ⟨"bb", ["cc"], 0⟩, ⟨"cc", ["aa"], 0⟩] false
      = SolveRes.circular "Detected circular dependency!" acc := by
  have e1 : DepEdge [⟨"aa", ["bb"], 0⟩, ⟨"bb", ["cc"], 0⟩, ⟨"cc", ["aa"], 0⟩] "aa" "bb" := by
    decide
  have e2 : DepEdge [⟨"aa", ["bb"], 0⟩, ⟨"bb", ["cc"], 0⟩, ⟨"cc", ["aa"], 0⟩] "bb" "cc" := by
    decide
  have e3 : DepEdge [⟨"aa", ["bb"], 0⟩, ⟨"bb", ["cc"], 0⟩, ⟨"cc", ["aa"], 0⟩] "cc" "aa" := by
    decide
  exact claim2_cycle_error _ false "aa" "bb" (by decide)
    (Relation.TransGen.single e1)
    (Relation.TransGen.head e2 (Relation.TransGen.single e3))

/-- C3: `solve_dependencies` is idempotent — applied to its own successful
output (same items, same deps) it returns exactly the same order. -/
theorem claim3_idempotent (things : List Thing) (warn : Bool) (res : List Thing)
    (acc : List (String × String))
    (h : solve_dependencies things warn = SolveRes.ok res acc) :
    ∃ acc₂, solve_dependencies res warn = SolveRes.ok res acc₂ := by
  obtain ⟨names', q1, q2, q3, _⟩ := solve_ok_elim h
  have hns : ∀ n ∈ names', n ∈ things.map Thing.name := fun n hn => q1.mem_iff.mp hn
  have hmapname : res.map Thing.name = names' := by
    rw [q2]
    exact map_name_map_lookup hns
  have hset2 : ∀ i, i < names'.length → SettledAt res names' i := by
    intro i hi
    have hgd : names'.getD i "" ∈ names' := getD_mem hi ""
    have hdeps : depsOf res (names'.getD i "") = depsOf things (names'.getD i "") := by
      unfold depsOf
      rw [q2, thingLookup_map_lookup hns hgd]
    intro dep hdep hmem
    rw [hdeps] at hdep
    exact q3 i hi dep hdep hmem
  obtain ⟨tl, htl⟩ := @solveLoop_settled warn res names' hset2 names'.length 0 [] (by omega)
  have hmapeq : names'.map (lookupFn res) = res := by
    rw [q2]
    apply List.map_congr_left
    intro n hn
    show (thingLookup (names'.map (lookupFn things)) n).getD default = lookupFn things n
    rw [thingLookup_map_lookup hns hn]
    rfl
  refine ⟨tl, ?_⟩
  simp only [solve_dependencies, hmapname, htl, List.nil_append]
  rw [hmapeq]

/-- Witness for C3: re-running the resolver on the output of the spec's
three-item example returns the identical order. -/
theorem claim3_witness :
    ∃ acc₂, solve_dependencies [⟨"a", [], 0⟩, ⟨"c", ["a"], 0⟩, ⟨"b", ["a"], 0⟩] false
      = SolveRes.ok [⟨"a", [], 0⟩, ⟨"c", ["a"], 0⟩, ⟨"b", ["a"], 0⟩] acc₂ :=
  claim3_idempotent [⟨"c", ["a"], 0⟩, ⟨"a", [], 0⟩, ⟨"b", ["a"], 0⟩] false _ [] (by decide)

/-- C4 (amended): dependency names absent from the sequence never cause
`solve_dependencies` to fail — on a distinct-name input whose present-name
graph is acyclic it returns normally — and with the warn flag enabled at
least one warning `(item name, dep)` is logged for every missing dependency
of every item; the same missing dependency may be warned more than once,
because the settle loop re-scans an item's deps each time it revisits it. -/
theorem claim4_missing_deps (things : List Thing)
    (hnd : (things.map Thing.name).Nodup)
    (hac : ∀ x, ¬ Relation.TransGen (DepEdge things) x x) :
    ∃ res acc, solve_dependencies things true = SolveRes.ok res acc ∧
      ∀ t ∈ things, ∀ dep ∈ t.deps, dep ∉ things.map Thing.name →
        (t.name, dep) ∈ acc := by
  cases hres : solve_dependencies things true with
  | fuelout => exact absurd hres (solve_not_fuelout things true)
  | circular m acc =>
    obtain ⟨_, x, hx⟩ := solve_circular_elim hres
    exact absurd hx (hac x)
  | ok res acc =>
    obtain ⟨names', q1, q2, q3, q5⟩ := solve_ok_elim hres
    refine ⟨res, acc, rfl, ?_⟩
    intro t ht dep hdep hmiss
    have htn : t.name ∈ things.map Thing.name := List.mem_map.mpr ⟨t, ht, rfl⟩
    have htn' : t.name ∈ names' := q1.mem_iff.mpr htn
    have hi : idxOf t.name names' < names'.length := idxOf_lt_length htn'
    have hgd : names'.getD (idxOf t.name names') "" = t.name := getD_idxOf htn' ""
    have hdeps : depsOf things t.name = t.deps := by
      unfold depsOf
      rw [thingLookup_of_mem_nodup hnd ht]
      rfl
    have hmiss' : dep ∉ names' := fun hc => hmiss (q1.mem_iff.mp hc)
    have hin := q5 rfl (idxOf t.name names') hi dep (by rw [hgd, hdeps]; exact hdep) hmiss'
    rw [hgd] at hin
    exact hin

/-- Counterexample to C4 as stated: one occurrence of the missing
dependency `m` in the deps of `X` is warned twice, because the settle loop
re-scans `X`'s deps after pulling `a` in front of it — so "exactly one
warning per missing dependency name per occurrence" fails. -/
theorem claim4_counterexample :
    solve_dependencies [⟨"X", ["m", "a"], 0⟩, ⟨"a", [], 0⟩] true
      = SolveRes.ok [⟨"a", [], 0⟩, ⟨"X", ["m", "a"], 0⟩] [("X", "m"), ("X", "m")] := by
  decide

/-- Witness for C4 (amended) at a concrete input with a missing dep. -/
theorem claim4_witness :
    ∃ res acc, solve_dependencies [⟨"Y", ["mm", "z"], 0⟩, ⟨"z", [], 0⟩] true
      = SolveRes.ok res acc ∧
      ∀ t ∈ ([⟨"Y", ["mm", "z"], 0⟩, ⟨"z", [], 0⟩] : List Thing), ∀ dep ∈ t.deps,
        dep ∉ ([⟨"Y", ["mm", "z"], 0⟩, ⟨"z", [], 0⟩] : List Thing).map Thing.name →
        (t.name, dep) ∈ acc :=
  claim4_missing_deps _ (by decide)
    (acyclic_of_rank _ (fun n => if n = "z" then 0 else 1) (by decide))

/-- C5 (amended): the spec's concrete three-item example resolves to the
order a, c, b.  (The general stable-tie-breaking statement of C5 is false:
see the counterexample.) -/
theorem claim5_example :
    solve_dependencies [⟨"c", ["a"], 0⟩, ⟨"a", [], 0⟩, ⟨"b", ["a"], 0⟩] false
      = SolveRes.ok [⟨"a", [], 0⟩, ⟨"c", ["a"], 0⟩, ⟨"b", ["a"], 0⟩] [] := by
  decide

/-- Counterexample to C5's general stability statement: `x` and `a` have no
direct or transitive dependency between them, `x` precedes `a` in the
input, yet `a` precedes `x` in the output — pulling `a` in front of `b`
moved it past the unrelated `x`. -/
theorem claim5_counterexample :
    solve_dependencies [⟨"b", ["a"], 0⟩, ⟨"x", [], 0⟩, ⟨"a", [], 0⟩] false
        = SolveRes.ok [⟨"a", [], 0⟩, ⟨"b", ["a"], 0⟩, ⟨"x", [], 0⟩] [] ∧
      ¬ Relation.TransGen (DepEdge [⟨"b", ["a"], 0⟩, ⟨"x", [], 0⟩, ⟨"a", [], 0⟩]) "x" "a" ∧
      ¬ Relation.TransGen (DepEdge [⟨"b", ["a"], 0⟩, ⟨"x", [], 0⟩, ⟨"a", [], 0⟩]) "a" "x" ∧
      idxOf "x" ([⟨"b", ["a"], 0⟩, ⟨"x", [], 0⟩, ⟨"a", [], 0⟩].map Thing.name)
        < idxOf "a" ([⟨"b", ["a"], 0⟩, ⟨"x", [], 0⟩, ⟨"a", [], 0⟩].map Thing.name) ∧
      idxOf "a" ([⟨"a", [], 0⟩, ⟨"b", ["a"], 0⟩, ⟨"x", [], 0⟩].map Thing.name)
        < idxOf "x" ([⟨"a", [], 0⟩, ⟨"b", ["a"], 0⟩, ⟨"x", [], 0⟩].map Thing.name) := by
  refine ⟨by decide, ?_, ?_, by decide, by decide⟩
  · intro h
    obtain ⟨c, hc⟩ := transGen_exists_edge h
    have hin := hc.2.2
    have hd : depsOf [⟨"b", ["a"], 0⟩, ⟨"x", [], 0⟩, ⟨"a", [], 0⟩] "x" = [] := by decide
    rw [hd] at hin
    simp at hin
  · intro h
    obtain ⟨c, hc⟩ := transGen_exists_edge h
    have hin := hc.2.2
    have hd : depsOf [⟨"b", ["a"], 0⟩, ⟨"x", [], 0⟩, ⟨"a", [], 0⟩] "a" = [] := by decide
    rw [hd] at hin
    simp at hin

/-- C10: `solve_dependencies` terminates on every input — it always either
returns an ordering or raises the circular-dependency error; the fuel
modeling the unbounded settle loop is never exhausted, because each pass
either raises or adds a fresh name to the seen-set. -/
theorem claim10_terminates (things : List Thing) (warn : Bool) :
    (∃ res acc, solve_dependencies things warn = SolveRes.ok res acc) ∨
    (∃ m acc, solve_dependencies things warn = SolveRes.circular m acc) := by
  cases hres : solve_dependencies things warn with
  | ok res acc => exact Or.inl ⟨res, acc, rfl⟩
  | circular m acc => exact Or.inr ⟨m, acc, rfl⟩
  | fuelout => exact absurd hres (solve_not_fuelout things warn)

/-! ## Claims about Bundle and Asset -/

theorem assetInitRest_name {name : String} {src : Source} {st : AssetState}
    (h : assetInitRest name src = Except.ok st) : st.name = name := by
  cases src with
  | none =>
    simp only [assetInitRest] at h
    split at h <;> simp at h
  | str s =>
    simp only [assetInitRest] at h
    split at h
    · simp at h
    · split at h
      · injection h with h2
        rw [← h2]
      · split at h
        · simp at h
        · injection h with h2
          rw [← h2]
  | func f =>
    simp only [assetInitRest] at h
    split at h
    · simp at h
    · injection h with h2
      rw [← h2]
  | other =>
    simp only [assetInitRest] at h
    split at h <;> simp at h

theorem asset_init_str_name {name : String} {st : AssetState} {s : String}
    (h : Asset.init name (Source.str s) = Except.ok st) : st.name = name := by
  simp only [Asset.init] at h
  split at h
  · simp at h
  · exact assetInitRest_name h

theorem bundleInit_ok {name : String} {b₀ : BundleState}
    (h : bundleInit name = Except.ok b₀) :
    b₀.name = name ∧ b₀.module_name = bundleModuleName name ∧
      b₀.deps = ∅ ∧ b₀.modules = [] := by
  simp only [bundleInit] at h
  cases hA : Asset.init name (Source.str "") with
  | error e => rw [hA] at h; simp at h
  | ok st =>
    rw [hA] at h
    cases h
    exact ⟨asset_init_str_name hA, rfl, rfl, rfl⟩

theorem addModule_ok_fields {b : BundleState} {m : Thing} {b' : BundleState}
    (h : addModule b m = Except.ok b') :
    b'.name = b.name ∧ b'.module_name = b.module_name ∧
      b'.deps = b.deps ∪ modContrib b.module_name (bundleExt b.name) m := by
  simp only [addModule] at h
  split at h
  · cases h; exact ⟨rfl, rfl, rfl⟩
  · simp at h

theorem addModules_deps : ∀ {ms : List Thing} {b b' : BundleState},
    addModules b ms = Except.ok b' →
    b'.name = b.name ∧ b'.module_name = b.module_name ∧
      ∀ d, d ∈ b'.deps ↔ d ∈ b.deps ∨
        ∃ m ∈ ms, d ∈ modContrib b.module_name (bundleExt b.name) m := by
  intro ms
  induction ms with
  | nil =>
    intro b b' h
    simp only [addModules] at h
    cases h
    exact ⟨rfl, rfl, fun d => by simp⟩
  | cons m rest ih =>
    intro b b' h
    simp only [addModules] at h
    cases hA : addModule b m with
    | error e => rw [hA] at h; simp at h
    | ok b₁ =>
      rw [hA] at h
      obtain ⟨f1, f2, f3⟩ := addModule_ok_fields hA
      obtain ⟨g1, g2, g3⟩ := ih h
      refine ⟨g1.trans f1, g2.trans f2, ?_⟩
      intro d
      rw [g3 d, f3, f1, f2]
      simp only [Finset.mem_union, List.mem_cons]
      constructor
      · rintro ((hd | hd) | ⟨m', hm', hd⟩)
        · exact Or.inl hd
        · exact Or.inr ⟨m, Or.inl rfl, hd⟩
        · exact Or.inr ⟨m', Or.inr hm', hd⟩
      · rintro (hd | ⟨m', rfl | hm', hd⟩)
        · exact Or.inl (Or.inl hd)
        · exact Or.inl (Or.inr hd)
        · exact Or.inr ⟨m', hm', hd⟩

/-- C6: after any sequence of `add_module` calls, the bundle's deps set is
exactly the union over the added modules of their declared dependencies
expanded into every dotted-path prefix, with expanded names inside the
bundle's namespace discarded and every survivor suffixed with the bundle's
extension; in particular the `pkg` example keeps `other.x`/`other` (with
the `.js` suffix) and drops `pkg.sub.b`, `pkg.sub` and `pkg`. -/
theorem claim6_bundle_deps (name : String) (ms : List Thing) (b₀ b : BundleState)
    (h0 : bundleInit name = Except.ok b₀) (h : addModules b₀ ms = Except.ok b) :
    (∀ d, d ∈ b.deps ↔ ∃ m ∈ ms,
        d ∈ modContrib (bundleModuleName name) (bundleExt name) m) ∧
      (∃ c₀ c, bundleInit "pkg.js" = Except.ok c₀ ∧
        addModules c₀ [⟨"pkg.a", ["pkg.sub.b", "other.x"], 0⟩] = Except.ok c ∧
        "other.x.js" ∈ c.deps ∧ "other.js" ∈ c.deps ∧ "pkg.sub.b.js" ∉ c.deps ∧
        "pkg.sub.js" ∉ c.deps ∧ "pkg.js" ∉ c.deps) := by
  obtain ⟨i1, i2, i3, _⟩ := bundleInit_ok h0
  obtain ⟨_, _, g3⟩ := addModules_deps h
  constructor
  · intro d
    rw [g3 d, i3, i2, i1]
    simp
  · exact ⟨_, _, rfl, rfl, by decide, by decide, by decide, by decide, by decide⟩

/-- Witness for C6: the `pkg` example instantiating the general statement. -/
theorem claim6_witness :
    ∃ b₀ b, bundleInit "pkg.js" = Except.ok b₀ ∧
      addModules b₀ [⟨"pkg.a", ["pkg.sub.b", "other.x"], 0⟩] = Except.ok b ∧
      ∀ d, d ∈ b.deps ↔ ∃ m ∈ [(⟨"pkg.a", ["pkg.sub.b", "other.x"], 0⟩ : Thing)],
        d ∈ modContrib (bundleModuleName "pkg.js") (bundleExt "pkg.js") m :=
  ⟨_, _, rfl, rfl,
    (claim6_bundle_deps "pkg.js" [⟨"pkg.a", ["pkg.sub.b", "other.x"], 0⟩] _ _ rfl rfl).1⟩

/-- C7 (code evidence): after adding a module, reading the sorted-modules
accessor sorts and caches the list but leaves `_need_sort` set to `true` —
the source never clears the flag, so a subsequent read with no intervening
add runs the sort again (observably: the second read still takes the
sorting branch, returning the same list and state). -/
theorem claim7_flag_not_cleared :
    ∃ b₀ b l b', bundleInit "pkg.js" = Except.ok b₀ ∧
      addModule b₀ ⟨"pkg.a", [], 0⟩ = Except.ok b ∧
      b.need_sort = true ∧
      bundleModules b = Except.ok (l, b') ∧
      b'.need_sort = true ∧
      bundleModules b' = Except.ok (l, b') :=
  ⟨_, _, _, _, rfl, rfl, rfl, rfl, rfl, rfl⟩

/-- C8: an asset constructed from the URL name alone is remote and named by
the URL basename; a URL name together with any explicit non-None source is
a construction error. -/
theorem claim8_url_asset :
    (∃ st, Asset.init "https://example.com/x.js" Source.none = Except.ok st ∧
      st.remote = true ∧ st.name = "x.js") ∧
    ∀ src, src ≠ Source.none →
      ∃ e, Asset.init "https://example.com/x.js" src = Except.error e := by
  constructor
  · exact ⟨_, rfl, rfl, rfl⟩
  · intro src hsrc
    cases src with
    | none => exact absurd rfl hsrc
    | str s => exact ⟨_, rfl⟩
    | func f => exact ⟨_, rfl⟩
    | other => exact ⟨_, rfl⟩

/-- Witness for C8: instantiated at the explicit literal source. -/
theorem claim8_witness :
    (∃ st, Asset.init "https://example.com/x.js" Source.none = Except.ok st ∧
      st.remote = true ∧ st.name = "x.js") ∧
    ∃ e, Asset.init "https://example.com/x.js" (Source.str "code") = Except.error e :=
  ⟨claim8_url_asset.1, claim8_url_asset.2 (Source.str "code") (fun h => nomatch h)⟩

/-- C9: for a function-sourced asset, construction stores the function
without invoking it (state unmaterialized), the first `to_string` invokes
it exactly once and caches the result, every later `to_string` returns the
cached string with zero invocations and an unchanged state (the state
never reverts), and a non-str return raises at first materialization. -/
theorem claim9_lazy_function_source (fetch : String → String) :
    (∀ st f s, st.source = Source.func f → st.source_str = Option.none →
      f () = FnRet.str s →
      Asset.to_string fetch st = Except.ok (s, { st with source_str := some s }, 1)) ∧
    (∀ st s, st.source_str = some s →
      Asset.to_string fetch st = Except.ok (s, st, 0)) ∧
    (∀ st f cn, st.source = Source.func f → st.source_str = Option.none →
      f () = FnRet.nonstr cn →
      Asset.to_string fetch st = Except.error ("Source function of asset " ++ st.name
        ++ " did not return a str, but a " ++ cn ++ ".")) ∧
    (∀ nm f st', Asset.init nm (Source.func f) = Except.ok st' →
      st'.source_str = Option.none ∧ st'.source = Source.func f ∧ st'.name = nm) := by
  refine ⟨?_, ?_, ?_, ?_⟩
  · intro st f s hsrc hunc hf
    simp only [Asset.to_string, hunc, hsrc, hf]
  · intro st s hc
    simp only [Asset.to_string, hc]
  · intro st f cn hsrc hunc hf
    simp only [Asset.to_string, hunc, hsrc, hf]
  · intro nm f st' h
    simp only [Asset.init] at h
    split at h
    · simp at h
    · simp only [assetInitRest] at h
      split at h
      · simp at h
      · cases h
        exact ⟨rfl, rfl, rfl⟩

/-- Witness for C9 at concrete function sources: construction does not
invoke, the first read invokes once and caches, the second read reads the
cache with zero invocations, and a non-str-returning function raises at
first read. -/
theorem claim9_witness :
    Asset.to_string (fun _ => "")
        ⟨"x.js", Source.func (fun _ => FnRet.str "code"), false, Option.none⟩
      = Except.ok ("code",
          ⟨"x.js", Source.func (fun _ => FnRet.str "code"), false, some "code"⟩, 1) ∧
    Asset.to_string (fun _ => "")
        ⟨"x.js", Source.func (fun _ => FnRet.str "code"), false, some "code"⟩
      = Except.ok ("code",
          ⟨"x.js", Source.func (fun _ => FnRet.str "code"), false, some "code"⟩, 0) ∧
    Asset.to_string (fun _ => "")
        ⟨"x.js", Source.func (fun _ => FnRet.nonstr "int"), false, Option.none⟩
      = Except.error ("Source function of asset " ++ "x.js"
          ++ " did not return a str, but a " ++ "int" ++ ".") ∧
    ∃ st', Asset.init "x.js" (Source.func (fun _ => FnRet.nonstr "int")) = Except.ok st' ∧
      st'.source_str = Option.none := by
  have C := claim9_lazy_function_source (fun _ => "")
  refine ⟨?_, ?_, ?_, ?_⟩
  · exact C.1 _ _ "code" rfl rfl rfl
  · exact C.2.1 _ "code" rfl
  · exact C.2.2.1 _ (fun _ => FnRet.nonstr "int") "int" rfl rfl rfl
  · exact ⟨_, rfl, (C.2.2.2 "x.js" _ _ rfl).1⟩

end Flexx
